import Mathlib

/-! Page system of a compacting memory manager: shallow embedding of `src/gc2.c`.

* `unsigned int` values are natural numbers reduced modulo `UINT = 2^32`
  wherever the C code computes them.
* The heap `pool` is a map from byte index to byte.  Reading or writing at an
  index `>= HEAPSIZE` is undefined in C; the embedding keeps the map total and
  the theorems carry the bound explicitly where it matters.
* The chain `FIRSTPAGE -> ... -> NULL` is the list of the nodes that follow the
  sentinel `ANCHOR`; `LASTPAGE` is the position of the node it points to in
  `ANCHOR :: pages` (0 is the sentinel).
* A loop that can spin forever or an `assert` that can abort makes the
  function return `Except Fault _`.
-/

namespace GC2

/-! ## Constants and types -/

/-- The constant of `#define HEAPSIZE 33554432`. -/
def HEAPSIZE : Nat := 33554432

/-- Modulus of the 32-bit `unsigned int`. -/
def UINT : Nat := 4294967296

/-- The type of `typedef char byte;` (only compared for equality). -/
abbrev byte := Char

/-- The array `static byte pool[HEAPSIZE]`, as a total map from index to byte. -/
abbrev Pool := Nat → byte

/-- Conversion of an `unsigned int` value to `int` (two's complement). -/
def toInt (n : Nat) : Int :=
  if n % UINT < 2147483648 then ((n % UINT : Nat) : Int) else ((n % UINT : Nat) : Int) - (UINT : Int)

/-- Conversion of an `int` value to `unsigned int`, as in `(unsigned int) (c->size)`. -/
def toUnsigned (z : Int) : Nat := (z.emod (UINT : Int)).toNat

/-- Wrap of a mathematical integer into the range of a 32-bit `int`. -/
def wrapInt (z : Int) : Int := (z + 2147483648) % 4294967296 - 2147483648

/-- The node of `struct page`.  The field `next` is the order of the list that holds
the node.  Field `obj` is a byte address relative to `&pool[0]` (`none` is `NULL`);
`addr` is the address of the node itself, as returned by `malloc`, so that
`&(node->obj)`, the handle given to the client, is identified by `addr`. -/
structure page where
  left : Nat
  right : Nat
  size : Nat
  obj : Option Int
  addr : Nat
deriving DecidableEq, Repr

/-- The sentinel of `page ANCHOR = {0, 0, 0, NULL, NULL};`. -/
def ANCHOR : page := { left := 0, right := 0, size := 0, obj := none, addr := 0 }

/-- The global state: `pool`, `freep`, the chain after `FIRSTPAGE = &ANCHOR`, and
`LASTPAGE` as a position in `ANCHOR :: pages`. -/
structure Heap where
  pool : Pool
  freep : Nat
  pages : List page
  LASTPAGE : Nat

/-- The initial state: zeroed static pool, `freep = 0`, `LASTPAGE = &ANCHOR`. -/
def Heap.init : Heap :=
  { pool := fun _ => Char.ofNat 0, freep := 0, pages := [], LASTPAGE := 0 }

/-- The assignment `pool[i] = v`. -/
def store (pool : Pool) (i : Nat) (v : byte) : Pool :=
  fun j => if j = i then v else pool j

/-- The ways a call can fail to return: a violated `assert`, or a loop that never ends. -/
inductive Fault where
  | assertion
  | hang
deriving DecidableEq, Repr

/-! ## Memory functions -/

/-- The function `memMove(array, init, final, size)`: a first loop copies `size` bytes starting
at `init` into `buffer`, a second loop writes `buffer` back starting at `final`.
The indices `i+init` and `i+final` are computed in `unsigned int`. -/
def memMove (array : Pool) (init final size : Nat) : Pool :=
  let buffer : List byte := (List.range size).map (fun i => array ((i + init) % UINT))
  (List.range size).foldl
    (fun arr i => store arr ((i + final) % UINT) (buffer.getD i (Char.ofNat 0))) array

/-- The function `memSet(array, value, position, size)`. -/
def memSet (array : Pool) (value : byte) (position size : Nat) : Pool :=
  (List.range size).foldl (fun arr i => store arr ((i + position) % UINT) value) array

/-! ## Page system -/

/-- The function `MV(newLeftPosition, PAGE, pool)`.  `sizeofGCobject` is `sizeof(struct GCobject)`
(declared in `gc.h`): `PAGE->obj` has type `struct GCobject *`, so `obj -= offset`
moves it by `offset` objects.  `offset` is an `int`. -/
def MV (sizeofGCobject : Nat) (newLeftPosition : Nat) (PAGE : page) (pool : Pool) :
    Except Fault (page × Pool) :=
  if newLeftPosition < PAGE.left then
    let oldPosition := PAGE.left
    let offset : Int := toInt ((PAGE.left + UINT - newLeftPosition % UINT) % UINT)
    let moved : page :=
      { PAGE with
        left := newLeftPosition
        right := ((PAGE.right : Int) - offset).emod (UINT : Int) |>.toNat
        obj := PAGE.obj.map (fun a => a - offset * (sizeofGCobject : Int)) }
    .ok (moved, memMove pool oldPosition newLeftPosition PAGE.size)
  else
    .error Fault.assertion

/-- The function `AVAILABLEMEM()`: `HEAPSIZE - freep` in `unsigned int`. -/
def AVAILABLEMEM (h : Heap) : Nat := (HEAPSIZE + UINT - h.freep % UINT) % UINT

/-- The function `addPage(size)`.  `newPage` is the address `malloc` returned for the node; the
handle `&(newPage->obj)` that the function returns is identified by it. -/
def addPage (h : Heap) (size : Nat) (newPage : Nat) : Heap :=
  let left := h.freep
  let right := (h.freep + size + 1) % UINT
  let sz := (size + 1) % UINT
  let node : page :=
    { left := left, right := right, size := sz, obj := some (h.freep : Int), addr := newPage }
  let chain := h.pages.take h.LASTPAGE ++ [node]
  { pool := store h.pool ((left + sz) % UINT) 'U'
    freep := (right + 1) % UINT
    pages := chain
    LASTPAGE := chain.length }

/-- Result of the `while` loop of `defrag`: the pool, the cursor, the nodes kept in the
chain (in order), and the number of calls of `MV`. -/
structure Sweep where
  pool : Pool
  freep : Nat
  kept : List page
  moves : Nat

/-- The `while(finished == 0)` loop of `defrag`, started with `tmp` at the head of the
list, for its effect on the pool, the cursor and the chain (the two pointers
`tmp_before` and `tmp` are followed in `defragLoop`).  A node whose mark byte is neither
`'M'` nor `'U'` leaves `tmp` unchanged and the loop never ends. -/
def sweep (sizeofGCobject : Nat) (pool : Pool) (freep : Nat) : List page → Except Fault Sweep
  | [] => .ok { pool := pool, freep := freep, kept := [], moves := 0 }
  | tmp :: rest =>
    let index := tmp.right
    if pool index = 'M' then
      let pool1 := store pool index 'U'
      if freep ≠ tmp.left then
        match MV sizeofGCobject freep tmp pool1 with
        | .error e => .error e
        | .ok (tmp1, pool2) =>
          match sweep sizeofGCobject pool2 ((tmp1.right + 1) % UINT) rest with
          | .error e => .error e
          | .ok r => .ok { r with kept := tmp1 :: r.kept, moves := r.moves + 1 }
      else
        match sweep sizeofGCobject pool1 ((tmp.right + 1) % UINT) rest with
        | .error e => .error e
        | .ok r => .ok { r with kept := tmp :: r.kept }
    else if pool index = 'U' then
      sweep sizeofGCobject pool freep rest
    else
      .error Fault.hang

/-- The `while(finished == 0)` loop of `defrag` with its two pointers.  `tmp_before` and
`tmp` are positions in `ANCHOR :: chain`, the chain being the one the loop is relinking;
the list holds the nodes from `tmp` on, and the loop ends when it is empty (`tmp == NULL`).
When a node is kept, `tmp_before = tmp; tmp = tmp->next` moves both pointers one node on.
When a node is unlinked by `tmp_before->next = tmp_next; tmp = tmp_next`, the node that
follows takes its position, so both positions stay.  The result is the state the loop
leaves and the last value of `tmp_before`. -/
def defragLoop (sizeofGCobject : Nat) (pool : Pool) (freep : Nat) (tmp_before tmp : Nat) :
    List page → Except Fault (Sweep × Nat)
  | [] => .ok ({ pool := pool, freep := freep, kept := [], moves := 0 }, tmp_before)
  | node :: rest =>
    let index := node.right
    if pool index = 'M' then
      let pool1 := store pool index 'U'
      if freep ≠ node.left then
        match MV sizeofGCobject freep node pool1 with
        | .error e => .error e
        | .ok (node1, pool2) =>
          match defragLoop sizeofGCobject pool2 ((node1.right + 1) % UINT) tmp (tmp + 1) rest with
          | .error e => .error e
          | .ok (r, last) =>
            .ok ({ r with kept := node1 :: r.kept, moves := r.moves + 1 }, last)
      else
        match defragLoop sizeofGCobject pool1 ((node.right + 1) % UINT) tmp (tmp + 1) rest with
        | .error e => .error e
        | .ok (r, last) => .ok ({ r with kept := node :: r.kept }, last)
    else if pool index = 'U' then
      defragLoop sizeofGCobject pool freep tmp_before tmp rest
    else
      .error Fault.hang

/-- The function `defrag()`: `freep = 0`, `tmp_before = FIRSTPAGE` (position 0),
`tmp = FIRSTPAGE->next` (position 1), the loop, and `LASTPAGE = tmp_before` (after the
loop `tmp` is `NULL`, so the `else` of the last test is never taken). -/
def defrag (sizeofGCobject : Nat) (h : Heap) : Except Fault Heap :=
  match defragLoop sizeofGCobject h.pool 0 0 1 h.pages with
  | .error e => .error e
  | .ok (r, tmp_before) =>
    .ok { pool := r.pool, freep := r.freep, pages := r.kept, LASTPAGE := tmp_before }

/-- Number of calls of `MV` made by `defrag()`. -/
def defragMoves (sizeofGCobject : Nat) (h : Heap) : Except Fault Nat :=
  match defragLoop sizeofGCobject h.pool 0 0 1 h.pages with
  | .error e => .error e
  | .ok (r, _) => .ok r.moves

/-! ## Allocation and statistics -/

/-- What a call of `gc_malloc` leaves: the handle (`none` is `NULL`), the state, and the
number of calls of `defrag` it made. -/
structure Malloc where
  handle : Option Nat
  heap : Heap
  defrags : Nat

/-- The function `gc_malloc(c)`, with `c->size = csize` (an `int`) and `newPage` the address
`malloc` gives to `addPage`. -/
def gc_malloc (sizeofGCobject : Nat) (h : Heap) (csize : Int) (newPage : Nat) :
    Except Fault Malloc :=
  let memSize : Nat := toUnsigned csize
  if HEAPSIZE < memSize then
    .ok { handle := none, heap := h, defrags := 0 }
  else
    let first : Except Fault (Heap × Nat) :=
      if AVAILABLEMEM h < memSize then
        match defrag sizeofGCobject h with
        | .error e => .error e
        | .ok h1 => .ok (h1, 1)
      else .ok (h, 0)
    match first with
    | .error e => .error e
    | .ok (h1, n) =>
      if AVAILABLEMEM h1 < memSize then
        .ok { handle := none, heap := h1, defrags := n }
      else
        .ok { handle := some newPage, heap := addPage h1 memSize newPage, defrags := n }

/-- Modelled from the spec: `struct GCstats` is declared in `gc.h`, which is not part of
the sources; `stats()` reports the extent count, the used bytes and the free bytes, and
`gc_stats` initialises it with three `int` values in that order. -/
structure GCstats where
  count : Int
  used : Int
  free : Int
deriving DecidableEq, Repr

/-- The function `gc_stats()`: the loop visits `ANCHOR` and then every node of the chain;
`count` starts at -1 and `usedSize += tmp->size` is an `int` updated with an
`unsigned int`. -/
def gc_stats (h : Heap) : GCstats :=
  let acc := (ANCHOR :: h.pages).foldl
    (fun (a : Int × Int) tmp => (a.1 + 1, wrapInt (a.2 + (tmp.size : Int)))) (-1, 0)
  { count := acc.1, used := acc.2, free := wrapInt ((HEAPSIZE : Int) - acc.2) }

/-- The marking of the node at position `k` of the chain: the statement `pool[right] = 'M'`,
as in the line `pool[251] = 'M';` of `test1` (`gc_mark` is an empty stub in the source). -/
def markAt (h : Heap) (k : Nat) : Heap :=
  match h.pages.get? k with
  | none => h
  | some p => { h with pool := store h.pool p.right 'M' }

/-- Consecutive calls `addPage(s1); ...; addPage(sN)`; the node of the `i`-th call is
at address `base + i`. -/
def addPages (h : Heap) (base : Nat) : List Nat → Heap
  | [] => h
  | s :: ss => addPages (addPage h s base) (base + 1) ss

/-! ## Predicates on states -/

/-- Extents laid out in chain order without overlap from byte `lo` on, inside the pool:
each extent starts after the `right` of the one before it, and the `size` bytes that
start at its `left` lie within `[left, right]`. -/
def Laid (lo : Nat) : List page → Prop
  | [] => True
  | p :: ps =>
    lo ≤ p.left ∧ p.left ≤ p.right ∧ p.left + p.size ≤ p.right + 1 ∧ p.right < HEAPSIZE ∧
      Laid (p.right + 1) ps

/-- Every mark byte `pool[right]` of the chain is `'M'` or `'U'`. -/
def Marked (pool : Pool) (ps : List page) : Prop :=
  ∀ p ∈ ps, pool p.right = 'M' ∨ pool p.right = 'U'

instance instDecidableLaid : ∀ (lo : Nat) (ps : List page), Decidable (Laid lo ps)
  | _, [] => isTrue trivial
  | lo, p :: ps =>
    have := instDecidableLaid (p.right + 1) ps
    (inferInstance : Decidable
      (lo ≤ p.left ∧ p.left ≤ p.right ∧ p.left + p.size ≤ p.right + 1 ∧ p.right < HEAPSIZE ∧
        Laid (p.right + 1) ps))

instance instDecidableMarked (pool : Pool) (ps : List page) : Decidable (Marked pool ps) :=
  (inferInstance : Decidable (∀ p ∈ ps, pool p.right = 'M' ∨ pool p.right = 'U'))

/-- The mark byte of the extent is `'M'`. -/
def live (pool : Pool) (p : page) : Bool := decide (pool p.right = 'M')

/-- The extents are contiguous: the first starts at `start`, each later one starts at the
`right + 1` of the one before it, and `fin` is the byte after the last one. -/
def Packed : Nat → List page → Nat → Prop
  | start, [], fin => fin = start
  | start, p :: ps, fin => p.left = start ∧ Packed (p.right + 1) ps fin

/-- Node `q` of the chain before the sweep is node `p` of the chain after it: same node,
same size field, same extent length, and the payload bytes (the first `size - 1` bytes)
that `pool` held at `q.left` are those that `pool1` holds at `p.left`. -/
def Relocated (pool pool1 : Pool) (q p : page) : Prop :=
  p.addr = q.addr ∧ p.size = q.size ∧ p.right - p.left = q.right - q.left ∧
    p.left ≤ q.left ∧ ∀ i, i < q.size - 1 → pool1 (p.left + i) = pool (q.left + i)

/-! ## Sample states -/

/-- A write of the client into the pool, `pool[i] = v`. -/
def writeByte (h : Heap) (i : Nat) (v : byte) : Heap := { h with pool := store h.pool i v }

/-- The heap after `addPage(250); addPage(1000); addPage(40)`, with `'a'` and `'b'` written
in the first and last payload bytes of the second extent, and the mark bytes of the second
and third extents set to `'M'`. -/
def demoHeap : Heap :=
  markAt (markAt (writeByte (writeByte (addPages Heap.init 1 [250, 1000, 40]) 252 'a') 1251 'b')
    1) 2

/-- The heap after `addPage(250)` with the mark byte of the extent set to `'M'`. -/
def oneLive : Heap := markAt (addPage Heap.init 250 1) 0

/-- The heap after `addPage(250); addPage(1000)` with the mark byte of the first extent set
to `'M'`. -/
def firstLive : Heap := markAt (addPages Heap.init 1 [250, 1000]) 0

/-- The heap after `addPage(250); addPage(1000)` with the mark byte of the second extent
set to `'M'`. -/
def secondLive : Heap := markAt (addPages Heap.init 1 [250, 1000]) 1

/-- The heap after `addPage(33554000)`: 430 bytes are left and the extent is unmarked. -/
def nearlyFull : Heap := addPage Heap.init 33554000 1

/-- The heap of `test1` before its `defrag()`: `addPage(250); addPage(1000)`, nothing
marked. -/
def test1Heap : Heap := addPages Heap.init 1 [250, 1000]

/-- The heap after `addPage(250); addPage(1000)`, with `'a'` written in the first payload
byte of the second extent and the mark bytes of both extents set to `'M'`. -/
def allLive : Heap := markAt (markAt (writeByte (addPages Heap.init 1 [250, 1000]) 252 'a') 0) 1

/-- The result of the third call in `gc_malloc` of 250 bytes, `gc_malloc` of 1000 bytes
(from the initial heap), marking of the second extent, `gc_malloc` of 33554000 bytes. -/
def afterFailedMalloc : Except Fault Malloc :=
  match gc_malloc 8 Heap.init 250 1 with
  | .error e => .error e
  | .ok r1 =>
    match gc_malloc 8 r1.heap 1000 2 with
    | .error e => .error e
    | .ok r2 => gc_malloc 8 (markAt r2.heap 1) 33554000 3

/-! # Theorems -/

/-! ## Memory functions -/

theorem store_same (pool : Pool) (i : Nat) (v : byte) : store pool i v i = v := by
  simp [store]

theorem store_other (pool : Pool) (i : Nat) (v : byte) {k : Nat} (h : k ≠ i) :
    store pool i v k = pool k := by
  simp [store, h]

theorem copy_loop (src : Pool) (init final n : Nat) (arr : Pool)
    (hf : final + n ≤ UINT) (k : Nat) :
    (List.range n).foldl
        (fun a i => store a ((i + final) % UINT) (src ((i + init) % UINT))) arr k
      = if final ≤ k ∧ k < final + n then src ((k - final + init) % UINT) else arr k := by
  induction n with
  | zero =>
    simp only [List.range_zero, List.foldl_nil]
    rw [if_neg (by omega)]
  | succ n ih =>
    rw [List.range_succ, List.foldl_append]
    simp only [List.foldl_cons, List.foldl_nil]
    have hmod : (n + final) % UINT = n + final := Nat.mod_eq_of_lt (by omega)
    rw [hmod]
    by_cases hk : k = n + final
    · subst hk
      rw [store_same, if_pos ⟨by omega, by omega⟩]
      congr 2
      omega
    · rw [store_other _ _ _ hk, ih (by omega)]
      by_cases h1 : final ≤ k ∧ k < final + n
      · rw [if_pos h1, if_pos ⟨h1.1, by omega⟩]
      · rw [if_neg h1, if_neg (by omega)]

theorem memMove_apply (array : Pool) (init final size : Nat)
    (hf : final + size ≤ UINT) (k : Nat) :
    memMove array init final size k
      = if final ≤ k ∧ k < final + size then array ((k - final + init) % UINT)
        else array k := by
  unfold memMove
  have hfun : (List.range size).foldl
      (fun arr i => store arr ((i + final) % UINT)
        (((List.range size).map (fun i => array ((i + init) % UINT))).getD i (Char.ofNat 0)))
      array
      = (List.range size).foldl
        (fun a i => store a ((i + final) % UINT) (array ((i + init) % UINT))) array := by
    apply List.foldl_ext
    intro a i hi
    have hi' : i < size := List.mem_range.mp hi
    simp [List.getD_eq_getElem?_getD, List.getElem?_range hi']
  rw [hfun, copy_loop array init final size array hf k]

/-! ## The sweep of `defrag` -/

theorem toInt_small (n : Nat) (h : n < 2147483648) : toInt n = (n : Int) := by
  have h1 : n % UINT = n := Nat.mod_eq_of_lt (by unfold UINT; omega)
  unfold toInt
  rw [h1, if_pos h]

theorem MV_ok (sz newLeft : Nat) (p : page) (pool : Pool)
    (h1 : newLeft < p.left) (h2 : p.left ≤ p.right) (h3 : p.right < HEAPSIZE) :
    MV sz newLeft p pool = .ok
      ({ p with
          left := newLeft
          right := newLeft + (p.right - p.left)
          obj := p.obj.map (fun a => a - ((p.left - newLeft : Nat) : Int) * (sz : Int)) },
        memMove pool p.left newLeft p.size) := by
  unfold HEAPSIZE at h3
  have e1 : (p.left + UINT - newLeft % UINT) % UINT = p.left - newLeft := by
    unfold UINT; omega
  have e2 : toInt (p.left - newLeft) = ((p.left - newLeft : Nat) : Int) :=
    toInt_small _ (by omega)
  have e3 : (((p.right : Int) - ((p.left - newLeft : Nat) : Int)).emod (UINT : Int)).toNat
      = newLeft + (p.right - p.left) := by
    unfold UINT
    have : ((p.right : Int) - ((p.left - newLeft : Nat) : Int)) = ((newLeft + (p.right - p.left) : Nat) : Int) := by
      omega
    rw [this]
    have h5 : (((newLeft + (p.right - p.left) : Nat) : Int)).emod ((4294967296 : Nat) : Int)
        = ((newLeft + (p.right - p.left) : Nat) : Int) := by
      apply Int.emod_eq_of_lt <;> omega
    rw [h5]
    exact Int.toNat_natCast _
  unfold MV
  rw [if_pos h1]
  simp only [e1, e2, e3]

theorem sweep_nil (sz : Nat) (pool : Pool) (freep : Nat) :
    sweep sz pool freep [] = .ok { pool := pool, freep := freep, kept := [], moves := 0 } := rfl

theorem sweep_dead (sz : Nat) (pool : Pool) (freep : Nat) (p : page) (rest : List page)
    (hU : pool p.right = 'U') :
    sweep sz pool freep (p :: rest) = sweep sz pool freep rest := by
  have hne : ¬ pool p.right = 'M' := by rw [hU]; decide
  rw [sweep]
  simp only [if_neg hne, if_pos hU]

theorem sweep_stay (sz : Nat) (pool : Pool) (freep : Nat) (p : page) (rest : List page)
    (r : Sweep) (hM : pool p.right = 'M') (hfl : freep = p.left)
    (hr : sweep sz (store pool p.right 'U') ((p.right + 1) % UINT) rest = .ok r) :
    sweep sz pool freep (p :: rest) = .ok { r with kept := p :: r.kept } := by
  rw [sweep]
  simp only [hM, hfl, if_true, ne_eq, not_true_eq_false, if_false, hr]

theorem sweep_move (sz : Nat) (pool : Pool) (freep : Nat) (p : page) (rest : List page)
    (p1 : page) (pool2 : Pool) (r : Sweep) (hM : pool p.right = 'M') (hfl : freep ≠ p.left)
    (hmv : MV sz freep p (store pool p.right 'U') = .ok (p1, pool2))
    (hr : sweep sz pool2 ((p1.right + 1) % UINT) rest = .ok r) :
    sweep sz pool freep (p :: rest) =
      .ok { r with kept := p1 :: r.kept, moves := r.moves + 1 } := by
  rw [sweep]
  simp only [hM, if_true, ne_eq, hfl, not_false_eq_true, hmv, hr]

/-- The loop with its pointers leaves what `sweep` leaves; `tmp_before` ends where it
started when no node is kept, and on the last kept node otherwise. -/
theorem defragLoop_eq_sweep (sz : Nat) (ps : List page) :
    ∀ (pool : Pool) (freep tb t : Nat),
      defragLoop sz pool freep tb t ps =
        match sweep sz pool freep ps with
        | .error e => .error e
        | .ok r => .ok (r, if r.kept = [] then tb else t + r.kept.length - 1) := by
  induction ps with
  | nil => intro pool freep tb t; rfl
  | cons p rest ih =>
    intro pool freep tb t
    rw [defragLoop, sweep]
    by_cases hM : pool p.right = 'M'
    · simp only [if_pos hM]
      by_cases hmv : freep ≠ p.left
      · simp only [if_pos hmv]
        cases hMV : MV sz freep p (store pool p.right 'U') with
        | error e => rfl
        | ok m =>
          obtain ⟨p1, pool2⟩ := m
          simp only []
          rw [ih]
          cases sweep sz pool2 ((p1.right + 1) % UINT) rest with
          | error e => rfl
          | ok r =>
            simp only [List.length_cons]
            by_cases hk : r.kept = []
            · simp [hk]
            · have : 0 < r.kept.length := List.length_pos.mpr hk
              simp only [if_neg hk]
              congr 2
              rw [if_neg (List.cons_ne_nil _ _)]
              omega
      · simp only [if_neg hmv]
        rw [ih]
        cases sweep sz (store pool p.right 'U') ((p.right + 1) % UINT) rest with
        | error e => rfl
        | ok r =>
          simp only [List.length_cons]
          by_cases hk : r.kept = []
          · simp [hk]
          · have : 0 < r.kept.length := List.length_pos.mpr hk
            simp only [if_neg hk]
            congr 2
            rw [if_neg (List.cons_ne_nil _ _)]
            omega
    · simp only [if_neg hM]
      by_cases hU : pool p.right = 'U'
      · simp only [if_pos hU]
        exact ih pool freep tb t
      · simp only [if_neg hU]

/-- The function `defrag()` in terms of `sweep`: `LASTPAGE` ends on the last node kept. -/
theorem defrag_eq (sz : Nat) (h : Heap) :
    defrag sz h =
      match sweep sz h.pool 0 h.pages with
      | .error e => .error e
      | .ok r =>
        .ok { pool := r.pool, freep := r.freep, pages := r.kept, LASTPAGE := r.kept.length } := by
  unfold defrag
  rw [defragLoop_eq_sweep]
  cases sweep sz h.pool 0 h.pages with
  | error e => rfl
  | ok r =>
    by_cases hk : r.kept = []
    · simp [hk]
    · have : 0 < r.kept.length := List.length_pos.mpr hk
      simp only [if_neg hk]
      congr 2
      omega

theorem defragMoves_eq (sz : Nat) (h : Heap) :
    defragMoves sz h =
      match sweep sz h.pool 0 h.pages with
      | .error e => .error e
      | .ok r => .ok r.moves := by
  unfold defragMoves
  rw [defragLoop_eq_sweep]
  cases sweep sz h.pool 0 h.pages <;> rfl

theorem Laid_mem {lo : Nat} {ps : List page} (h : Laid lo ps) :
    ∀ q ∈ ps, lo ≤ q.left ∧ q.left ≤ q.right ∧ q.right < HEAPSIZE := by
  induction ps generalizing lo with
  | nil => intro q hq; cases hq
  | cons p rest ih =>
    intro q hq
    obtain ⟨h1, h2, _, h4, h5⟩ := h
    rcases List.mem_cons.mp hq with rfl | hq
    · exact ⟨h1, h2, h4⟩
    · obtain ⟨a, b, c⟩ := ih h5 q hq
      exact ⟨by omega, b, c⟩

theorem Marked_of_agree {pool pool1 : Pool} {lo : Nat} {ps : List page}
    (hl : Laid lo ps) (hag : ∀ k, lo ≤ k → pool1 k = pool k) (hm : Marked pool ps) :
    Marked pool1 ps := by
  intro q hq
  obtain ⟨a, b, _⟩ := Laid_mem hl q hq
  rw [hag q.right (by omega)]
  exact hm q hq

theorem filter_live_agree {pool pool1 : Pool} {lo : Nat} {ps : List page}
    (hl : Laid lo ps) (hag : ∀ k, lo ≤ k → pool1 k = pool k) :
    ps.filter (live pool1) = ps.filter (live pool) := by
  apply List.filter_congr
  intro q hq
  obtain ⟨a, b, _⟩ := Laid_mem hl q hq
  simp only [live, hag q.right (by omega)]

theorem sweep_spec (sz : Nat) (ps : List page) :
    ∀ (pool : Pool) (freep lo : Nat), freep ≤ lo → Laid lo ps → Marked pool ps →
      ∃ r, sweep sz pool freep ps = .ok r ∧
        List.Forall₂ (fun q p => lo ≤ q.left ∧ Relocated pool r.pool q p)
          (ps.filter (live pool)) r.kept ∧
        Packed freep r.kept r.freep ∧
        (∀ k, k < freep → r.pool k = pool k) ∧ freep ≤ r.freep := by
  induction ps with
  | nil =>
    intro pool freep lo _ _ _
    exact ⟨_, sweep_nil sz pool freep, by simp, rfl, fun _ _ => rfl, le_rfl⟩
  | cons p rest ih =>
    intro pool freep lo hfl hlaid hmark
    obtain ⟨hlo, hlr, hsz, hr, hrest⟩ := hlaid
    have hrU : p.right + 1 < UINT := by unfold HEAPSIZE at hr; unfold UINT; omega
    have hmarkr : Marked pool rest := fun q hq => hmark q (List.mem_cons_of_mem _ hq)
    rcases hmark p (List.mem_cons_self _ _) with hM | hU
    · have hlive : live pool p = true := by simp [live, hM]
      by_cases hmv : freep = p.left
      · -- the extent is already at the cursor: no copy
        have hag : ∀ k, p.right + 1 ≤ k → store pool p.right 'U' k = pool k :=
          fun k hk => store_other _ _ _ (by omega)
        have hmod : (p.right + 1) % UINT = p.right + 1 := Nat.mod_eq_of_lt hrU
        obtain ⟨r, hr1, hrel, hpk, hfr, hle⟩ :=
          ih (store pool p.right 'U') (p.right + 1) (p.right + 1) le_rfl hrest
            (Marked_of_agree hrest hag hmarkr)
        refine ⟨{ r with kept := p :: r.kept },
          sweep_stay sz pool freep p rest r hM hmv (by rw [hmod]; exact hr1), ?_, ?_, ?_, ?_⟩
        · rw [List.filter_cons_of_pos hlive, ← filter_live_agree hrest hag]
          refine List.Forall₂.cons ⟨hlo, rfl, rfl, rfl, le_rfl, ?_⟩ (hrel.imp ?_)
          · intro i hi
            show r.pool (p.left + i) = pool (p.left + i)
            rw [hfr (p.left + i) (by omega), store_other _ _ _ (by omega)]
          · rintro q p' ⟨h1, h2, h3, h4, h5, h6⟩
            refine ⟨by omega, h2, h3, h4, h5, ?_⟩
            intro i hi
            rw [h6 i hi, hag _ (by omega)]
        · exact ⟨hmv.symm, hpk⟩
        · intro k hk
          show r.pool k = pool k
          rw [hfr k (by omega), store_other _ _ _ (by omega)]
        · show freep ≤ r.freep
          omega
      · -- the extent slides left to the cursor
        have hlt : freep < p.left := by omega
        have hMV := MV_ok sz freep p (store pool p.right 'U') hlt hlr hr
        have hfs : freep + p.size ≤ UINT := by omega
        have hag : ∀ k, p.right + 1 ≤ k →
            memMove (store pool p.right 'U') p.left freep p.size k = pool k := by
          intro k hk
          rw [memMove_apply _ _ _ _ hfs, if_neg (by omega), store_other _ _ _ (by omega)]
        have hmod : (freep + (p.right - p.left) + 1) % UINT = freep + (p.right - p.left) + 1 :=
          Nat.mod_eq_of_lt (by omega)
        obtain ⟨r, hr1, hrel, hpk, hfr, hle⟩ :=
          ih (memMove (store pool p.right 'U') p.left freep p.size)
            (freep + (p.right - p.left) + 1) (p.right + 1) (by omega) hrest
            (Marked_of_agree hrest hag hmarkr)
        refine ⟨_, sweep_move sz pool freep p rest _ _ r hM hmv hMV (by rw [hmod]; exact hr1),
          ?_, ?_, ?_, ?_⟩
        · rw [List.filter_cons_of_pos hlive, ← filter_live_agree hrest hag]
          refine List.Forall₂.cons ⟨hlo, rfl, rfl, ?_, ?_, ?_⟩ (hrel.imp ?_)
          · show freep + (p.right - p.left) - freep = p.right - p.left
            omega
          · show freep ≤ p.left
            omega
          · intro i hi
            show r.pool (freep + i) = pool (p.left + i)
            rw [hfr (freep + i) (by omega), memMove_apply _ _ _ _ hfs,
              if_pos ⟨by omega, by omega⟩]
            have e : (freep + i - freep + p.left) % UINT = p.left + i := by
              rw [Nat.mod_eq_of_lt (by omega)]; omega
            rw [e, store_other _ _ _ (by omega)]
          · rintro q p' ⟨h1, h2, h3, h4, h5, h6⟩
            refine ⟨by omega, h2, h3, h4, h5, ?_⟩
            intro i hi
            rw [h6 i hi, hag _ (by omega)]
        · exact ⟨rfl, hpk⟩
        · intro k hk
          show r.pool k = pool k
          rw [hfr k (by omega), memMove_apply _ _ _ _ hfs, if_neg (by omega),
            store_other _ _ _ (by omega)]
        · show freep ≤ r.freep
          omega
    · -- the extent is unlinked
      have hdead : ¬ live pool p = true := by
        simp only [live, hU, decide_eq_true_eq]; decide
      obtain ⟨r, hr1, hrel, hpk, hfr, hle⟩ :=
        ih pool freep (p.right + 1) (by omega) hrest hmarkr
      refine ⟨r, by rw [sweep_dead sz pool freep p rest hU]; exact hr1, ?_, hpk, hfr, hle⟩
      rw [List.filter_cons_of_neg hdead]
      refine hrel.imp ?_
      rintro q p' ⟨h1, h2⟩
      exact ⟨by omega, h2⟩

/-! ## Statistics and the shape of the chain after `defrag` -/

theorem wrapInt_id (z : Int) (h1 : -2147483648 ≤ z) (h2 : z < 2147483648) : wrapInt z = z := by
  unfold wrapInt; omega

theorem stats_fold (ps : List page) :
    ∀ (c u : Int), 0 ≤ u → u + (((ps.map (fun p => p.size)).sum : Nat) : Int) < 2147483648 →
      ps.foldl (fun (a : Int × Int) tmp => (a.1 + 1, wrapInt (a.2 + (tmp.size : Int)))) (c, u)
        = (c + (ps.length : Int), u + (((ps.map (fun p => p.size)).sum : Nat) : Int)) := by
  induction ps with
  | nil => intro c u _ _; simp
  | cons p rest ih =>
    intro c u hu hb
    simp only [List.map_cons, List.sum_cons, Nat.cast_add] at hb
    simp only [List.foldl_cons, List.map_cons, List.sum_cons, List.length_cons, Nat.cast_add,
      Nat.cast_one]
    rw [wrapInt_id _ (by omega) (by omega), ih _ _ (by omega) (by omega)]
    congr 1 <;> ring

theorem gc_stats_eq (h : Heap) (hb : (h.pages.map (fun p => p.size)).sum < 2147483648) :
    gc_stats h =
      { count := (h.pages.length : Int)
        used := (((h.pages.map (fun p => p.size)).sum : Nat) : Int)
        free := (HEAPSIZE : Int) - (((h.pages.map (fun p => p.size)).sum : Nat) : Int) } := by
  have hb' : (((h.pages.map (fun p => p.size)).sum : Nat) : Int) < 2147483648 := by omega
  have h0 : wrapInt ((0 : Int) + ((ANCHOR.size : Nat) : Int)) = 0 := by decide
  unfold gc_stats
  simp only [List.foldl_cons, h0]
  rw [stats_fold h.pages _ 0 le_rfl (by omega)]
  simp only [zero_add, neg_add_cancel]
  rw [wrapInt_id _ (by unfold HEAPSIZE; omega) (by unfold HEAPSIZE; omega)]

theorem Laid_sum_le (f : page → Bool) (ps : List page) :
    ∀ lo, Laid lo ps → lo + ((ps.filter f).map (fun p => p.size)).sum ≤ max lo HEAPSIZE := by
  induction ps with
  | nil => intro lo _; simp
  | cons p rest ih =>
    intro lo hl
    obtain ⟨h1, h2, h3, h4, h5⟩ := hl
    have := ih (p.right + 1) h5
    have hmax : max (p.right + 1) HEAPSIZE = HEAPSIZE := max_eq_right (by omega)
    rw [hmax] at this
    have hle : HEAPSIZE ≤ max lo HEAPSIZE := le_max_right _ _
    by_cases hf : f p = true
    · rw [List.filter_cons_of_pos hf]
      simp only [List.map_cons, List.sum_cons]
      omega
    · rw [List.filter_cons_of_neg hf]
      omega

theorem Forall₂_map_eq {α β γ : Type} {R : α → β → Prop} (f : α → γ) (g : β → γ)
    (hR : ∀ a b, R a b → g b = f a) {l1 : List α} {l2 : List β} (h : List.Forall₂ R l1 l2) :
    l2.map g = l1.map f := by
  induction h with
  | nil => rfl
  | cons hab _ ih => simp only [List.map_cons, hR _ _ hab, ih]

theorem Packed_chain (ps : List page) :
    ∀ start fin, Packed start ps fin →
      (∀ p ∈ ps.head?, p.left = start) ∧
      List.Chain' (fun a b : page => b.left = a.right + 1) ps := by
  induction ps with
  | nil => intro _ _ _; simp
  | cons p rest ih =>
    intro start fin hp
    obtain ⟨h1, h2⟩ := hp
    obtain ⟨h3, h4⟩ := ih _ _ h2
    refine ⟨by simpa using h1, ?_⟩
    rw [List.chain'_cons']
    exact ⟨h3, h4⟩

/-- What `defrag` does on a heap whose extents are laid out in chain order and whose mark
bytes are all `'M'` or `'U'`. -/
theorem defrag_spec (sz : Nat) (h : Heap) (hl : Laid 0 h.pages) (hm : Marked h.pool h.pages) :
    ∃ h1, defrag sz h = .ok h1 ∧
      List.Forall₂ (Relocated h.pool h1.pool) (h.pages.filter (live h.pool)) h1.pages ∧
      Packed 0 h1.pages h1.freep ∧ h1.LASTPAGE = h1.pages.length := by
  obtain ⟨r, hr, hrel, hpk, _, _⟩ := sweep_spec sz h.pages h.pool 0 0 le_rfl hl hm
  refine ⟨_, by rw [defrag_eq, hr], hrel.imp (fun _ _ hx => hx.2), hpk, rfl⟩

/-! ## What `addPage` does -/

theorem addPage_pages (h : Heap) (s a : Nat) :
    (addPage h s a).pages = h.pages.take h.LASTPAGE ++
      [{ left := h.freep, right := (h.freep + s + 1) % UINT, size := (s + 1) % UINT,
         obj := some (h.freep : Int), addr := a }] := rfl

theorem addPage_freep (h : Heap) (s a : Nat) :
    (addPage h s a).freep = ((h.freep + s + 1) % UINT + 1) % UINT := rfl

theorem addPage_pool (h : Heap) (s a : Nat) :
    (addPage h s a).pool = store h.pool ((h.freep + (s + 1) % UINT) % UINT) 'U' := rfl

theorem addPage_LASTPAGE (h : Heap) (s a : Nat) :
    (addPage h s a).LASTPAGE = (addPage h s a).pages.length := rfl

/-- Without wrap-around, `addPage(s)` puts the mark byte at `freep + s + 1` and moves
the cursor to `freep + s + 2`. -/
theorem addPage_no_wrap (h : Heap) (s a : Nat) (hb : h.freep + s + 2 < UINT) :
    (addPage h s a).freep = h.freep + s + 2 ∧
    (addPage h s a).pool (h.freep + s + 1) = 'U' ∧
    (addPage h s a).pages = h.pages.take h.LASTPAGE ++
      [{ left := h.freep, right := h.freep + s + 1, size := s + 1,
         obj := some (h.freep : Int), addr := a }] := by
  have h1 : (h.freep + s + 1) % UINT = h.freep + s + 1 := Nat.mod_eq_of_lt (by omega)
  have h2 : (s + 1) % UINT = s + 1 := Nat.mod_eq_of_lt (by omega)
  have h3 : (h.freep + s + 1 + 1) % UINT = h.freep + s + 2 := Nat.mod_eq_of_lt (by omega)
  have h4 : (h.freep + (s + 1)) % UINT = h.freep + s + 1 := Nat.mod_eq_of_lt (by omega)
  refine ⟨?_, ?_, ?_⟩
  · rw [addPage_freep, h1, h3]
  · rw [addPage_pool, h2, h4]; simp [store]
  · rw [addPage_pages, h1, h2]

/-- The cursor after `addPage(s1); ...; addPage(sN)` without wrap-around: every call
consumes `s + 2` bytes. -/
theorem addPages_freep (ss : List Nat) (h : Heap) (base : Nat)
    (hb : h.freep + (ss.map (fun s => s + 2)).sum < UINT) :
    (addPages h base ss).freep = h.freep + (ss.map (fun s => s + 2)).sum := by
  induction ss generalizing h base with
  | nil => simp [addPages]
  | cons s ss ih =>
    simp only [List.map_cons, List.sum_cons] at hb
    have h1 := (addPage_no_wrap h s base (by omega)).1
    simp only [addPages, List.map_cons, List.sum_cons]
    rw [ih (addPage h s base) (base + 1) (by omega), h1]
    omega

/-! ## Claims C1 and C2 : allocation -/

/-- C1: `addPage(250)` on the initial heap (`freep = 0`, `0 + 250 + 1 <= HEAPSIZE`) appends
one extent with `left = 0` and size field 251, but its `right` is 251 and the cursor
is left at 252, where the claim states `right = 250` and `freep = 251`. -/
theorem addPage_right_is_one_too_far :
    0 + 250 + 1 ≤ HEAPSIZE ∧
    (addPage Heap.init 250 1).pages =
      [{ left := 0, right := 251, size := 251, obj := some 0, addr := 1 }] ∧
    (addPage Heap.init 250 1).pool 251 = 'U' ∧
    (addPage Heap.init 250 1).freep = 252 := by
  decide

/-- C2: after `addPage(250); addPage(1000)` from the initial heap the two extents are in
request order, the first at `left = 0`, the second at the first one's `right + 1`, but
`freep` is 1254, where the claim states `250 + 1000 + 2 = 1252`. -/
theorem addPages_cursor_counts_two_per_extent :
    (addPages Heap.init 1 [250, 1000]).pages =
      [{ left := 0, right := 251, size := 251, obj := some 0, addr := 1 },
       { left := 252, right := 1253, size := 1001, obj := some 252, addr := 2 }] ∧
    (addPages Heap.init 1 [250, 1000]).freep = 1254 ∧
    (addPages Heap.init 1 [250, 1000]).freep ≠ 250 + 1000 + 2 := by
  decide

/-! ## Claims C3, C4 and C6 : compaction of a well laid out heap -/

/-- C3: on a heap whose extents are laid out in chain order without overlap and whose mark
bytes are all `'M'` or `'U'`, `defrag` returns, and the chain it leaves is, node for node,
the extents that were marked `'M'`; each of them holds at its new `left` the payload
bytes (all but the last of its `size` bytes) it held at its old `left`. -/
theorem defrag_preserves_payload (sz : Nat) (h : Heap)
    (hl : Laid 0 h.pages) (hm : Marked h.pool h.pages) :
    ∃ h1, defrag sz h = .ok h1 ∧
      List.Forall₂
        (fun q p => p.addr = q.addr ∧ p.size = q.size ∧
          ∀ i, i < q.size - 1 → h1.pool (p.left + i) = h.pool (q.left + i))
        (h.pages.filter (live h.pool)) h1.pages := by
  obtain ⟨h1, hd, hrel, _, _⟩ := defrag_spec sz h hl hm
  exact ⟨h1, hd, hrel.imp (fun _ _ hx => ⟨hx.1, hx.2.1, hx.2.2.2.2⟩)⟩

theorem defrag_preserves_payload_witness :
    Laid 0 demoHeap.pages ∧ Marked demoHeap.pool demoHeap.pages ∧
    ∃ h1, defrag 8 demoHeap = .ok h1 ∧
      List.Forall₂
        (fun q p => p.addr = q.addr ∧ p.size = q.size ∧
          ∀ i, i < q.size - 1 → h1.pool (p.left + i) = demoHeap.pool (q.left + i))
        (demoHeap.pages.filter (live demoHeap.pool)) h1.pages :=
  ⟨by decide, by decide, defrag_preserves_payload 8 demoHeap (by decide) (by decide)⟩

/-- C4: on such a heap, after `defrag` the count reported by `gc_stats` is the number of
extents whose mark byte was `'M'`, and the used bytes are the sum of their size fields. -/
theorem defrag_reclaims_exactly_dead (sz : Nat) (h : Heap)
    (hl : Laid 0 h.pages) (hm : Marked h.pool h.pages) :
    ∃ h1, defrag sz h = .ok h1 ∧
      (gc_stats h1).count = ((h.pages.filter (live h.pool)).length : Int) ∧
      (gc_stats h1).used =
        ((((h.pages.filter (live h.pool)).map (fun p => p.size)).sum : Nat) : Int) := by
  obtain ⟨h1, hd, hrel, _, _⟩ := defrag_spec sz h hl hm
  have hsz : h1.pages.map (fun p => p.size)
      = (h.pages.filter (live h.pool)).map (fun p => p.size) :=
    Forall₂_map_eq (fun q => q.size) (fun p => p.size) (fun _ _ hx => hx.2.1) hrel
  have hlen : h1.pages.length = (h.pages.filter (live h.pool)).length := hrel.length_eq.symm
  have hsum := Laid_sum_le (live h.pool) h.pages 0 hl
  have hmax : max 0 HEAPSIZE = HEAPSIZE := by decide
  rw [hmax, zero_add, ← hsz] at hsum
  have hb : (h1.pages.map (fun p => p.size)).sum < 2147483648 := by
    unfold HEAPSIZE at hsum; omega
  refine ⟨h1, hd, ?_, ?_⟩
  · rw [gc_stats_eq h1 hb, hlen]
  · rw [gc_stats_eq h1 hb, hsz]

theorem defrag_reclaims_exactly_dead_witness :
    Laid 0 demoHeap.pages ∧ Marked demoHeap.pool demoHeap.pages ∧
    ∃ h1, defrag 8 demoHeap = .ok h1 ∧
      (gc_stats h1).count = ((demoHeap.pages.filter (live demoHeap.pool)).length : Int) ∧
      (gc_stats h1).used =
        ((((demoHeap.pages.filter (live demoHeap.pool)).map (fun p => p.size)).sum : Nat) : Int) :=
  ⟨by decide, by decide, defrag_reclaims_exactly_dead 8 demoHeap (by decide) (by decide)⟩

/-- C6: on such a heap, `defrag` returns and the chain it leaves is the chain before it
with the extents marked `'U'` removed: the same nodes in the same order, with their size
field and extent length kept; the first one has `left = 0` and each later one has its
`left` at the `right + 1` of the one before it. -/
theorem defrag_chain_is_packed_survivors (sz : Nat) (h : Heap)
    (hl : Laid 0 h.pages) (hm : Marked h.pool h.pages) :
    ∃ h1, defrag sz h = .ok h1 ∧
      List.Forall₂
        (fun q p => p.addr = q.addr ∧ p.size = q.size ∧ p.right - p.left = q.right - q.left)
        (h.pages.filter (fun q => decide (h.pool q.right ≠ 'U'))) h1.pages ∧
      (∀ p ∈ h1.pages.head?, p.left = 0) ∧
      List.Chain' (fun a b : page => b.left = a.right + 1) h1.pages := by
  obtain ⟨h1, hd, hrel, hpk, _⟩ := defrag_spec sz h hl hm
  have hf : h.pages.filter (fun q => decide (h.pool q.right ≠ 'U'))
      = h.pages.filter (live h.pool) := by
    apply List.filter_congr
    intro q hq
    rcases hm q hq with hM | hU
    · simp only [live, hM]; decide
    · simp only [live, hU]; decide
  obtain ⟨hhead, hchain⟩ := Packed_chain h1.pages 0 h1.freep hpk
  rw [hf]
  exact ⟨h1, hd, hrel.imp (fun _ _ hx => ⟨hx.1, hx.2.1, hx.2.2.1⟩), hhead, hchain⟩

theorem defrag_chain_is_packed_survivors_witness :
    Laid 0 demoHeap.pages ∧ Marked demoHeap.pool demoHeap.pages ∧
    ∃ h1, defrag 8 demoHeap = .ok h1 ∧
      List.Forall₂
        (fun q p => p.addr = q.addr ∧ p.size = q.size ∧ p.right - p.left = q.right - q.left)
        (demoHeap.pages.filter (fun q => decide (demoHeap.pool q.right ≠ 'U'))) h1.pages ∧
      (∀ p ∈ h1.pages.head?, p.left = 0) ∧
      List.Chain' (fun a b : page => b.left = a.right + 1) h1.pages :=
  ⟨by decide, by decide, defrag_chain_is_packed_survivors 8 demoHeap (by decide) (by decide)⟩

/-! ## Claims C5 and C7 : cursor and handle after compaction -/

/-- C5: on the heap left by `addPage(250)` with its mark byte set to `'M'` (every mark byte
is `'M'` or `'U'`), `defrag` keeps the extent, whose size field is 251, and leaves
`freep = 252`, where the claim states the sum of the size fields, 251, which is what
`gc_stats` reports as used. -/
theorem defrag_cursor_is_not_used_bytes :
    Marked oneLive.pool oneLive.pages ∧
    (defrag 8 oneLive).toOption.map
        (fun h => (h.freep, (gc_stats h).used, h.pages.map (fun p => p.size)))
      = some (252, 251, [251]) := by
  decide

/-- C7: on the heap left by `addPage(250); addPage(1000)` with only the second extent
marked, `defrag` moves that extent from `left = 252` to `left = 0` and leaves
`obj = &pool[252] - 252 * sizeof(struct GCobject)` bytes, which is `&pool[0]` only if
`sizeof(struct GCobject)` is 1; with a size of 8 it is 1764 bytes before the pool. -/
theorem MV_scales_obj_by_sizeof (sz : Nat) :
    secondLive.pages.map (fun p => (p.left, p.obj)) = [(0, some 0), (252, some 252)] ∧
    (defrag sz secondLive).toOption.map (fun h => h.pages.map (fun p => (p.left, p.obj)))
      = some [(0, some (252 - 252 * (sz : Int)))] ∧
    ((252 - 252 * (sz : Int) = 0) ↔ sz = 1) := by
  refine ⟨by decide, ?_, by omega⟩
  have hp : secondLive.pages =
      [{ left := 0, right := 251, size := 251, obj := some 0, addr := 1 },
       { left := 252, right := 1253, size := 1001, obj := some 252, addr := 2 }] := by decide
  have hU : secondLive.pool 251 = 'U' := by decide
  have hM : secondLive.pool 1253 = 'M' := by decide
  rw [defrag_eq, hp, sweep_dead sz _ 0 _ _ hU,
    sweep_move sz _ 0 _ [] _ _ _ hM (by decide)
      (MV_ok sz 0 _ _ (by decide) (by decide) (by decide)) (sweep_nil sz _ _)]
  simp [Except.toOption]

theorem sweep_all_dead (sz : Nat) (pool : Pool) (freep : Nat) (ps : List page)
    (hU : ∀ p ∈ ps, pool p.right = 'U') :
    sweep sz pool freep ps = .ok { pool := pool, freep := freep, kept := [], moves := 0 } := by
  induction ps with
  | nil => rfl
  | cons p rest ih =>
    rw [sweep_dead sz pool freep p rest (hU p (List.mem_cons_self _ _))]
    exact ih (fun q hq => hU q (List.mem_cons_of_mem _ hq))

theorem sweep_unmoved_marks (sz : Nat) (ps : List page) :
    ∀ (pool : Pool) (freep lo : Nat), freep ≤ lo → Laid lo ps → Marked pool ps →
      ∀ r, sweep sz pool freep ps = .ok r → r.moves = 0 →
        ∀ p ∈ r.kept, r.pool p.right = 'U' := by
  induction ps with
  | nil =>
    intro pool freep lo _ _ _ r hr _ p hp
    rw [sweep_nil] at hr
    cases hr
    cases hp
  | cons p rest ih =>
    intro pool freep lo hfl hlaid hmark r hr h0
    obtain ⟨hlo, hlr, hsz, hrb, hrest⟩ := hlaid
    have hrU : p.right + 1 < UINT := by unfold HEAPSIZE at hrb; unfold UINT; omega
    have hmarkr : Marked pool rest := fun q hq => hmark q (List.mem_cons_of_mem _ hq)
    rcases hmark p (List.mem_cons_self _ _) with hM | hU
    · by_cases hmv : freep = p.left
      · have hag : ∀ k, p.right + 1 ≤ k → store pool p.right 'U' k = pool k :=
          fun k hk => store_other _ _ _ (by omega)
        have hmod : (p.right + 1) % UINT = p.right + 1 := Nat.mod_eq_of_lt hrU
        have hmark1 := Marked_of_agree hrest hag hmarkr
        obtain ⟨r0, hr0, _, _, hfr, _⟩ :=
          sweep_spec sz rest (store pool p.right 'U') (p.right + 1) (p.right + 1) le_rfl
            hrest hmark1
        rw [sweep_stay sz pool freep p rest r0 hM hmv (by rw [hmod]; exact hr0)] at hr
        cases hr
        intro q hq
        rcases List.mem_cons.mp hq with rfl | hq
        · show r0.pool q.right = 'U'
          rw [hfr q.right (by omega), store_same]
        · exact ih _ _ _ le_rfl hrest hmark1 r0 hr0 h0 q hq
      · exfalso
        have hlt : freep < p.left := by omega
        have hMV := MV_ok sz freep p (store pool p.right 'U') hlt hlr hrb
        have hfs : freep + p.size ≤ UINT := by omega
        have hag : ∀ k, p.right + 1 ≤ k →
            memMove (store pool p.right 'U') p.left freep p.size k = pool k := by
          intro k hk
          rw [memMove_apply _ _ _ _ hfs, if_neg (by omega), store_other _ _ _ (by omega)]
        have hmod : (freep + (p.right - p.left) + 1) % UINT = freep + (p.right - p.left) + 1 :=
          Nat.mod_eq_of_lt (by omega)
        obtain ⟨r0, hr0, _⟩ :=
          sweep_spec sz rest (memMove (store pool p.right 'U') p.left freep p.size)
            (freep + (p.right - p.left) + 1) (p.right + 1) (by omega) hrest
            (Marked_of_agree hrest hag hmarkr)
        rw [sweep_move sz pool freep p rest _ _ r0 hM hmv hMV (by rw [hmod]; exact hr0)] at hr
        cases hr
        exact Nat.succ_ne_zero _ h0
    · rw [sweep_dead sz pool freep p rest hU] at hr
      exact ih pool freep (p.right + 1) (by omega) hrest hmarkr r hr h0

/-! ## Claim C8 : running `defrag` twice -/

/-- C8 (as stated, refuted): on the heap left by `addPage(250)` with its mark byte set,
the first `defrag` keeps the extent and leaves `freep = 252`; a second `defrag` right
after it unlinks the extent and leaves `freep = 0`. -/
theorem defrag_twice_is_not_defrag_once :
    (defrag 8 oneLive).toOption.map (fun h => (h.freep, h.pages))
      = some (252, [{ left := 0, right := 251, size := 251, obj := some 0, addr := 1 }]) ∧
    ((defrag 8 oneLive).toOption.bind (fun h => (defrag 8 h).toOption)).map
        (fun h => (h.freep, h.pages))
      = some (0, []) := by
  decide

/-- C8 (amended): on a heap whose extents are laid out in chain order and whose mark bytes
are all `'M'` or `'U'`, when the first `defrag` moves no extent, a second `defrag` right
after it returns with an empty chain, `freep = 0` and `LASTPAGE` on the sentinel, moves
no extent and leaves the pool as the first run left it; the state after the second run
is the state after the first exactly when the first run kept no extent. -/
theorem defrag_second_run_reclaims_all (sz : Nat) (h : Heap)
    (hl : Laid 0 h.pages) (hm : Marked h.pool h.pages) (h0 : defragMoves sz h = .ok 0) :
    ∃ h1 h2, defrag sz h = .ok h1 ∧ defrag sz h1 = .ok h2 ∧
      h2.pages = [] ∧ h2.freep = 0 ∧ h2.LASTPAGE = 0 ∧ h2.pool = h1.pool ∧
      defragMoves sz h1 = .ok 0 ∧ (h2 = h1 ↔ h1.pages = []) := by
  obtain ⟨r, hr, _, hpk, _⟩ := sweep_spec sz h.pages h.pool 0 0 le_rfl hl hm
  have hmoves : r.moves = 0 := by
    rw [defragMoves_eq] at h0
    rw [hr] at h0
    injection h0
  have hall := sweep_unmoved_marks sz h.pages h.pool 0 0 le_rfl hl hm r hr hmoves
  have h2 := sweep_all_dead sz r.pool 0 r.kept hall
  refine ⟨{ pool := r.pool, freep := r.freep, pages := r.kept, LASTPAGE := r.kept.length },
    { pool := r.pool, freep := 0, pages := [], LASTPAGE := 0 }, ?_, ?_, rfl, rfl, rfl, rfl, ?_,
    ?_⟩
  · rw [defrag_eq, hr]
  · rw [defrag_eq]; simp only [h2]; rfl
  · rw [defragMoves_eq]; simp only [h2]
  · constructor
    · intro he
      have := congrArg Heap.pages he
      exact this.symm
    · intro hk
      have hk' : r.kept = [] := hk
      rw [hk'] at hpk
      have hf : r.freep = 0 := hpk
      simp only [hk', hf, List.length_nil]

theorem defrag_second_run_reclaims_all_witness :
    Laid 0 firstLive.pages ∧ Marked firstLive.pool firstLive.pages ∧
    defragMoves 8 firstLive = .ok 0 ∧
    ∃ h1 h2, defrag 8 firstLive = .ok h1 ∧ defrag 8 h1 = .ok h2 ∧
      h2.pages = [] ∧ h2.freep = 0 ∧ h2.LASTPAGE = 0 ∧ h2.pool = h1.pool ∧
      defragMoves 8 h1 = .ok 0 ∧ (h2 = h1 ↔ h1.pages = []) :=
  ⟨by decide, by decide, rfl,
    defrag_second_run_reclaims_all 8 firstLive (by decide) (by decide) rfl⟩

theorem defrag_LASTPAGE (sz : Nat) (h h1 : Heap) (hd : defrag sz h = .ok h1) :
    h1.LASTPAGE = h1.pages.length := by
  rw [defrag_eq] at hd
  split at hd
  · cases hd
  · cases hd; rfl

theorem addPage_at_tail (h : Heap) (s a : Nat) (ht : h.LASTPAGE = h.pages.length)
    (hs : s ≤ HEAPSIZE) :
    ∃ p, (addPage h s a).pages = h.pages ++ [p] ∧
      (addPage h s a).LASTPAGE = (addPage h s a).pages.length ∧
      p.addr = a ∧ p.size = s + 1 ∧ p.left = h.freep := by
  have h2 : (s + 1) % UINT = s + 1 := Nat.mod_eq_of_lt (by unfold HEAPSIZE at hs; unfold UINT; omega)
  refine ⟨page.mk h.freep ((h.freep + s + 1) % UINT) ((s + 1) % UINT) (some (h.freep : Int)) a,
    ?_, rfl, rfl, h2, rfl⟩
  rw [addPage_pages, ht, List.take_length]

/-! ## `gc_malloc` when the `defrag` it calls returns -/

/-- When the `defrag` that `gc_malloc` may call returns, with state `h1`, `gc_malloc`
returns, and it returns the null handle exactly when the size exceeds `HEAPSIZE`, or
`AVAILABLEMEM()` is below the size both before and after that `defrag`; otherwise it has
called `defrag` at most once and returns the handle of a new extent, of size field
`size + 1`, appended at the tail of the chain by `addPage`. -/
theorem gc_malloc_fails_iff (sz : Nat) (h h1 : Heap) (csize : Int) (a : Nat)
    (ht : h.LASTPAGE = h.pages.length)
    (hd : toUnsigned csize ≤ HEAPSIZE → AVAILABLEMEM h < toUnsigned csize →
      defrag sz h = .ok h1) :
    ∃ r, gc_malloc sz h csize a = .ok r ∧
      (r.handle = none ↔
        HEAPSIZE < toUnsigned csize ∨
          (AVAILABLEMEM h < toUnsigned csize ∧ AVAILABLEMEM h1 < toUnsigned csize)) ∧
      r.defrags ≤ 1 ∧
      (r.handle ≠ none →
        r.handle = some a ∧
        ∃ h0 p, (r.defrags = 0 ∧ h0 = h ∨ r.defrags = 1 ∧ defrag sz h = .ok h0) ∧
          r.heap = addPage h0 (toUnsigned csize) a ∧
          r.heap.pages = h0.pages ++ [p] ∧ r.heap.LASTPAGE = r.heap.pages.length ∧
          p.addr = a ∧ p.size = toUnsigned csize + 1 ∧ p.left = h0.freep) := by
  by_cases hbig : HEAPSIZE < toUnsigned csize
  · refine ⟨{ handle := none, heap := h, defrags := 0 }, ?_, ?_, ?_, ?_⟩
    · unfold gc_malloc; simp only [if_pos hbig]
    · simp [hbig]
    · simp
    · intro hne; exact absurd rfl hne
  · have hle : toUnsigned csize ≤ HEAPSIZE := by omega
    by_cases hav : AVAILABLEMEM h < toUnsigned csize
    · have hdef := hd hle hav
      by_cases hav1 : AVAILABLEMEM h1 < toUnsigned csize
      · refine ⟨{ handle := none, heap := h1, defrags := 1 }, ?_, ?_, ?_, ?_⟩
        · unfold gc_malloc; simp only [if_neg hbig, if_pos hav, hdef, if_pos hav1]
        · simp [hav, hav1]
        · simp
        · intro hne; exact absurd rfl hne
      · refine ⟨{ handle := some a, heap := addPage h1 (toUnsigned csize) a, defrags := 1 },
          ?_, ?_, ?_, ?_⟩
        · unfold gc_malloc; simp only [if_neg hbig, if_pos hav, hdef, if_neg hav1]
        · simp [hbig, hav1]
        · simp
        · intro _
          obtain ⟨p, hp⟩ := addPage_at_tail h1 (toUnsigned csize) a
            (defrag_LASTPAGE sz h h1 hdef) hle
          exact ⟨rfl, h1, p, Or.inr ⟨rfl, hdef⟩, rfl, hp⟩
    · refine ⟨{ handle := some a, heap := addPage h (toUnsigned csize) a, defrags := 0 },
        ?_, ?_, ?_, ?_⟩
      · unfold gc_malloc; simp only [if_neg hbig, if_neg hav]
      · simp [hbig, hav]
      · simp
      · intro _
        obtain ⟨p, hp⟩ := addPage_at_tail h (toUnsigned csize) a ht hle
        exact ⟨rfl, h, p, Or.inl ⟨rfl, rfl⟩, rfl, hp⟩

theorem gc_malloc_fails_iff_witness :
    nearlyFull.LASTPAGE = nearlyFull.pages.length ∧
    (toUnsigned 1000 ≤ HEAPSIZE → AVAILABLEMEM nearlyFull < toUnsigned 1000 →
      defrag 8 nearlyFull
        = .ok { pool := nearlyFull.pool, freep := 0, pages := [], LASTPAGE := 0 }) ∧
    ∃ r, gc_malloc 8 nearlyFull 1000 2 = .ok r ∧
      (r.handle = none ↔
        HEAPSIZE < toUnsigned 1000 ∨
          (AVAILABLEMEM nearlyFull < toUnsigned 1000 ∧
            AVAILABLEMEM { pool := nearlyFull.pool, freep := 0, pages := [], LASTPAGE := 0 }
              < toUnsigned 1000)) ∧
      r.defrags ≤ 1 ∧
      (r.handle ≠ none →
        r.handle = some 2 ∧
        ∃ h0 p, (r.defrags = 0 ∧ h0 = nearlyFull ∨ r.defrags = 1 ∧ defrag 8 nearlyFull = .ok h0) ∧
          r.heap = addPage h0 (toUnsigned 1000) 2 ∧
          r.heap.pages = h0.pages ++ [p] ∧ r.heap.LASTPAGE = r.heap.pages.length ∧
          p.addr = 2 ∧ p.size = toUnsigned 1000 + 1 ∧ p.left = h0.freep) :=
  ⟨by decide, fun _ _ => rfl,
    gc_malloc_fails_iff 8 nearlyFull _ 1000 2 (by decide) (fun _ _ => rfl)⟩

/-! ## Claims C9 and C10 : `gc_malloc` -/

set_option maxRecDepth 100000 in
/-- C9: after `gc_malloc` of 250 and of 1000 bytes on the initial heap, marking the second
extent, and a `gc_malloc` of 33554000 bytes (which compacts once and returns `NULL`,
leaving one extent at `left = 0`, `right = 1001` and `freep = 1002`), a further
`gc_malloc` of 33554000 bytes, a size within `HEAPSIZE`, finds `AVAILABLEMEM()` too
small, calls `defrag` and never returns: it gives neither `NULL` nor a handle. -/
theorem gc_malloc_hangs_in_defrag :
    afterFailedMalloc.toOption.map
        (fun r => (r.handle, r.defrags, r.heap.freep, AVAILABLEMEM r.heap))
      = some (none, 1, 1002, 33553430) ∧
    afterFailedMalloc.toOption.map (fun r => r.heap.pages)
      = some [{ left := 0, right := 1001, size := 1001, obj := some (-1764), addr := 2 }] ∧
    toUnsigned 33554000 ≤ HEAPSIZE ∧
    (match afterFailedMalloc with
      | .ok r =>
        (match gc_malloc 8 r.heap 33554000 4 with
          | .error e => some e
          | .ok _ => none)
      | .error e => some e) = some Fault.hang := by
  refine ⟨by decide, by decide, by decide, by decide⟩

/-- C10: for every state and every `c->size` whose conversion to `unsigned int` exceeds
`HEAPSIZE` (so also every negative `int`), `gc_malloc` returns the null handle, has not
called `defrag`, and leaves the state as it was. -/
theorem gc_malloc_oversize (sz : Nat) (h : Heap) (csize : Int) (a : Nat)
    (hc : HEAPSIZE < toUnsigned csize ∨ (-2147483648 ≤ csize ∧ csize < 0)) :
    gc_malloc sz h csize a = .ok { handle := none, heap := h, defrags := 0 } := by
  have hbig : HEAPSIZE < toUnsigned csize := by
    rcases hc with hc | ⟨h1, h2⟩
    · exact hc
    · unfold toUnsigned HEAPSIZE UINT
      have : csize.emod ((4294967296 : Nat) : Int) = csize + 4294967296 := by
        show csize % ((4294967296 : Nat) : Int) = csize + 4294967296
        omega
      rw [this]
      omega
  unfold gc_malloc
  simp only [if_pos hbig]

theorem gc_malloc_oversize_witness :
    (HEAPSIZE < toUnsigned 33554433 ∨ ((-2147483648 : Int) ≤ 33554433 ∧ (33554433 : Int) < 0)) ∧
    gc_malloc 8 demoHeap 33554433 9 = .ok { handle := none, heap := demoHeap, defrags := 0 } :=
  ⟨by decide, gc_malloc_oversize 8 demoHeap 33554433 9 (by decide)⟩

/-! ## Claims C11, C12 and C13 : scenarios on the cursor -/

/-- C11: from the initial heap `gc_malloc` of size `HEAPSIZE - 1` succeeds and leaves
`freep = HEAPSIZE + 1`; `AVAILABLEMEM()` is then `2^32 - 1`, and with the mark byte of that
extent set to `'M'` a following `gc_malloc` of size 1 returns a handle without calling
`defrag`, where the claim states that it returns the null handle. -/
theorem gc_malloc_on_full_heap_succeeds :
    (gc_malloc 8 Heap.init 33554431 1).toOption.map
        (fun r => (r.handle, r.defrags, r.heap.freep, r.heap.pages))
      = some (some 1, 0, 33554433,
          [{ left := 0, right := 33554432, size := 33554432, obj := some 0, addr := 1 }]) ∧
    AVAILABLEMEM (addPage Heap.init 33554431 1) = 4294967295 ∧
    ((gc_malloc 8 Heap.init 33554431 1).toOption.bind
        (fun r => (gc_malloc 8 (markAt r.heap 0) 1 2).toOption)).map
        (fun r => (r.handle, r.defrags, r.heap.freep, r.heap.pages.map (fun p => p.left)))
      = some (some 2, 0, 33554436, [0, 33554433]) := by
  decide

/-- C12: after `addPage(250); addPage(1000)`, marking only the second extent and `defrag`,
the chain holds one extent with `left = 0` and size field 1001, but `freep` is 1002,
where the claim states 1001. -/
theorem defrag_scenario_cursor (sz : Nat) :
    (defrag sz secondLive).toOption.map
        (fun h => (h.pages.map (fun p => (p.left, p.right, p.size)), h.freep))
      = some ([(0, 1001, 1001)], 1002) := by
  have hp : secondLive.pages =
      [{ left := 0, right := 251, size := 251, obj := some 0, addr := 1 },
       { left := 252, right := 1253, size := 1001, obj := some 252, addr := 2 }] := by decide
  have hU : secondLive.pool 251 = 'U' := by decide
  have hM : secondLive.pool 1253 = 'M' := by decide
  rw [defrag_eq, hp, sweep_dead sz _ 0 _ _ hU,
    sweep_move sz _ 0 _ [] _ _ _ hM (by decide)
      (MV_ok sz 0 _ _ (by decide) (by decide) (by decide)) (sweep_nil sz _ _)]
  simp [Except.toOption, UINT]

/-- C13: from the initial heap `gc_malloc` of size `HEAPSIZE` returns a handle; the extent
it adds has `right = HEAPSIZE + 1`, the mark byte `'U'` is written at that index, outside
`pool[HEAPSIZE]`, and `freep` is left at `HEAPSIZE + 2`. -/
theorem gc_malloc_leaves_cursor_past_pool :
    (gc_malloc 8 Heap.init 33554432 1).toOption.map
        (fun r => (r.handle, r.heap.freep, r.heap.pages.map (fun p => p.right),
          r.heap.pool 33554433))
      = some (some 1, 33554434, [33554433], 'U') ∧
    ¬ (33554434 ≤ HEAPSIZE) ∧ ¬ (33554433 < HEAPSIZE) := by
  decide

/-! ## Claim C14 : `gc_stats` -/

/-- C14: for every chain whose size fields add up to less than `2^31` (so that the `int`
`usedSize` does not overflow), `gc_stats` returns the number of extents of the chain
(the sentinel excluded) as count, the sum of their size fields as used bytes, and
`HEAPSIZE` minus that sum as free bytes. -/
theorem gc_stats_reports_chain (h : Heap)
    (hb : (h.pages.map (fun p => p.size)).sum < 2147483648) :
    (gc_stats h).count = (h.pages.length : Int) ∧
    (gc_stats h).used = (((h.pages.map (fun p => p.size)).sum : Nat) : Int) ∧
    (gc_stats h).free = (HEAPSIZE : Int) - (gc_stats h).used := by
  rw [gc_stats_eq h hb]
  exact ⟨rfl, rfl, rfl⟩

theorem gc_stats_reports_chain_witness :
    (demoHeap.pages.map (fun p => p.size)).sum < 2147483648 ∧
    (gc_stats demoHeap).count = (demoHeap.pages.length : Int) ∧
    (gc_stats demoHeap).used = (((demoHeap.pages.map (fun p => p.size)).sum : Nat) : Int) ∧
    (gc_stats demoHeap).free = (HEAPSIZE : Int) - (gc_stats demoHeap).used :=
  ⟨by decide, gc_stats_reports_chain demoHeap (by decide)⟩

/-! ## Claims C15 and C16 : mark bytes after a relocation -/

set_option maxRecDepth 100000 in
/-- C15: on the heap left by `addPage(250); addPage(1000)` with only the second extent
marked (every mark byte is `'M'` or `'U'`), `defrag` moves that extent to `left = 0`,
`right = 1001`, and the byte `pool[1001]` is then the zero byte, not `'U'`: the `'U'` was
written at the old `right` and `MV` copies only the `size` bytes that start at `left`. -/
theorem defrag_leaves_stale_mark_byte :
    Marked secondLive.pool secondLive.pages ∧
    (defrag 8 secondLive).toOption.map
        (fun h => h.pages.map (fun p => (p.left, p.right, h.pool p.right)))
      = some [(0, 1001, Char.ofNat 0)] ∧
    Char.ofNat 0 ≠ 'U' := by
  decide

set_option maxRecDepth 100000 in
/-- C16: the heap left by `addPage(250); addPage(1000)`, marking the second extent and a
first `defrag` is reachable; a second `defrag` on it never returns, because the mark byte
of the extent is neither `'M'` nor `'U'` and the loop does not advance. -/
theorem defrag_after_relocation_hangs :
    (match defrag 8 secondLive with
      | .ok h1 =>
        (match defrag 8 h1 with
          | .error e => some e
          | .ok _ => none)
      | .error e => some e) = some Fault.hang := by
  decide

/-! ## Claim C17 : `memMove` -/

/-- C17: for an array of `len` bytes (`len` within the range of `int`) and ranges
`[init, init+size)` and `[final, final+size)` inside it, overlapping or not, after
`memMove` the byte at `final + i` is the byte that was at `init + i` for every `i < size`,
and every byte outside `[final, final+size)` is unchanged. -/
theorem memMove_is_overlap_safe (array : Pool) (init final size len : Nat)
    (hlen : len ≤ 2147483648) (hi : init + size ≤ len) (hf : final + size ≤ len) :
    (∀ i, i < size → memMove array init final size (final + i) = array (init + i)) ∧
    (∀ k, k < final ∨ final + size ≤ k → memMove array init final size k = array k) := by
  have hfU : final + size ≤ UINT := by unfold UINT; omega
  constructor
  · intro i hi'
    rw [memMove_apply array init final size hfU, if_pos ⟨by omega, by omega⟩]
    have e : (final + i - final + init) % UINT = init + i := by
      rw [Nat.mod_eq_of_lt (by unfold UINT; omega)]; omega
    rw [e]
  · intro k hk
    rw [memMove_apply array init final size hfU, if_neg (by omega)]

theorem memMove_is_overlap_safe_witness :
    HEAPSIZE ≤ 2147483648 ∧ 252 + 1001 ≤ HEAPSIZE ∧ 0 + 1001 ≤ HEAPSIZE ∧
    (∀ i, i < 1001 → memMove demoHeap.pool 252 0 1001 (0 + i) = demoHeap.pool (252 + i)) ∧
    (∀ k, k < 0 ∨ 0 + 1001 ≤ k → memMove demoHeap.pool 252 0 1001 k = demoHeap.pool k) :=
  ⟨by decide, by decide, by decide,
    memMove_is_overlap_safe demoHeap.pool 252 0 1001 HEAPSIZE (by decide) (by decide)
      (by decide)⟩

/-! ## Claim C18 : `LASTPAGE` after `defrag` -/

theorem cons_getElem?_length (a : page) (ps : List page) :
    (a :: ps)[ps.length]? = (a :: ps).getLast? := by
  rw [List.getLast?_eq_getElem?]
  simp

theorem getLast?_cons_of_ne_nil (a : page) (ps : List page) (h : ps ≠ []) :
    (a :: ps).getLast? = ps.getLast? := by
  cases ps with
  | nil => exact absurd rfl h
  | cons b bs => exact List.getLast?_cons_cons

/-- C18: on a heap whose extents are laid out in chain order without overlap and whose mark
bytes are all `'M'` or `'U'`, `defrag` returns and the value `tmp_before` it stores in
`LASTPAGE` is the position of the last node of `ANCHOR :: chain`.  The chain being the
extents that were marked `'M'`, that node is the last surviving extent, and it is the
sentinel when no extent was marked `'M'`; the chain is then empty and `freep = 0`. -/
theorem defrag_sets_LASTPAGE_to_tail (sz : Nat) (h : Heap)
    (hl : Laid 0 h.pages) (hm : Marked h.pool h.pages) :
    ∃ h1, defrag sz h = .ok h1 ∧
      (ANCHOR :: h1.pages)[h1.LASTPAGE]? = (ANCHOR :: h1.pages).getLast? ∧
      h1.pages.map (fun p => p.addr)
        = (h.pages.filter (live h.pool)).map (fun p => p.addr) ∧
      (h1.pages ≠ [] → (ANCHOR :: h1.pages)[h1.LASTPAGE]? = h1.pages.getLast?) ∧
      ((∀ p ∈ h.pages, h.pool p.right ≠ 'M') →
        h1.pages = [] ∧ h1.freep = 0 ∧ (ANCHOR :: h1.pages)[h1.LASTPAGE]? = some ANCHOR) := by
  obtain ⟨h1, hd, hrel, hpk, hlast⟩ := defrag_spec sz h hl hm
  have htail : (ANCHOR :: h1.pages)[h1.LASTPAGE]? = (ANCHOR :: h1.pages).getLast? := by
    rw [hlast]
    exact cons_getElem?_length ANCHOR h1.pages
  have haddr := Forall₂_map_eq (fun q : page => q.addr) (fun p : page => p.addr)
    (fun _ _ hx => hx.1) hrel
  refine ⟨h1, hd, htail, haddr, ?_, ?_⟩
  · intro hne
    rw [htail, getLast?_cons_of_ne_nil ANCHOR h1.pages hne]
  · intro hnone
    have hfil : h.pages.filter (live h.pool) = [] := by
      rw [List.filter_eq_nil_iff]
      intro p hp
      simp only [live, decide_eq_true_eq]
      exact hnone p hp
    rw [hfil] at hrel
    have hk : h1.pages = [] := by
      have hlen := hrel.length_eq
      rw [List.length_nil] at hlen
      exact List.eq_nil_of_length_eq_zero hlen.symm
    rw [hk] at hpk
    have hf : h1.freep = 0 := hpk
    refine ⟨hk, hf, ?_⟩
    rw [htail, hk]
    rfl

theorem defrag_sets_LASTPAGE_to_tail_witness :
    Laid 0 demoHeap.pages ∧ Marked demoHeap.pool demoHeap.pages ∧
    ∃ h1, defrag 8 demoHeap = .ok h1 ∧
      (ANCHOR :: h1.pages)[h1.LASTPAGE]? = (ANCHOR :: h1.pages).getLast? ∧
      h1.pages.map (fun p => p.addr)
        = (demoHeap.pages.filter (live demoHeap.pool)).map (fun p => p.addr) ∧
      (h1.pages ≠ [] → (ANCHOR :: h1.pages)[h1.LASTPAGE]? = h1.pages.getLast?) ∧
      ((∀ p ∈ demoHeap.pages, demoHeap.pool p.right ≠ 'M') →
        h1.pages = [] ∧ h1.freep = 0 ∧ (ANCHOR :: h1.pages)[h1.LASTPAGE]? = some ANCHOR) :=
  ⟨by decide, by decide, defrag_sets_LASTPAGE_to_tail 8 demoHeap (by decide) (by decide)⟩

/-! ## Claim C19 : `defrag` when every extent is marked -/

theorem Packed_append (ps : List page) :
    ∀ (start fin : Nat) (p : page), Packed start ps fin → p.left = fin →
      Packed start (ps ++ [p]) (p.right + 1) := by
  induction ps with
  | nil =>
    intro start fin p hp hl
    have hp' : fin = start := hp
    exact ⟨by rw [hl, hp'], rfl⟩
  | cons q rest ih =>
    intro start fin p hp hl
    exact ⟨hp.1, ih _ _ p hp.2 hl⟩

theorem Packed_lower (ps : List page) :
    ∀ (start fin : Nat), Packed start ps fin → (∀ p ∈ ps, p.left ≤ p.right) →
      ∀ q ∈ ps, start ≤ q.left := by
  induction ps with
  | nil => intro _ _ _ _ q hq; cases hq
  | cons p rest ih =>
    intro start fin hp hlr q hq
    rcases List.mem_cons.mp hq with rfl | hq
    · exact le_of_eq hp.1.symm
    · have h1 := ih _ _ hp.2 (fun x hx => hlr x (List.mem_cons_of_mem _ hx)) q hq
      have h2 := hlr p (List.mem_cons_self _ _)
      have h3 : p.left = start := hp.1
      omega

/-- The chain built by `addPage` calls on a packed chain stays packed, ends at `freep`,
and keeps `LASTPAGE` on its last node. -/
theorem addPages_packed (ss : List Nat) :
    ∀ (h : Heap) (base : Nat), h.LASTPAGE = h.pages.length → Packed 0 h.pages h.freep →
      (∀ p ∈ h.pages, p.left ≤ p.right ∧ p.right < h.freep) →
      h.freep + (ss.map (fun s => s + 2)).sum < UINT →
      (addPages h base ss).LASTPAGE = (addPages h base ss).pages.length ∧
      Packed 0 (addPages h base ss).pages (addPages h base ss).freep ∧
      (∀ p ∈ (addPages h base ss).pages, p.left ≤ p.right ∧ p.right < (addPages h base ss).freep) ∧
      (addPages h base ss).freep = h.freep + (ss.map (fun s => s + 2)).sum := by
  induction ss with
  | nil =>
    intro h base ht hp hlr _
    exact ⟨ht, hp, hlr, by simp [addPages]⟩
  | cons s ss ih =>
    intro h base ht hp hlr hb
    simp only [List.map_cons, List.sum_cons] at hb
    obtain ⟨hf, _, hpg⟩ := addPage_no_wrap h s base (by omega)
    rw [ht, List.take_length] at hpg
    have h1 : (addPage h s base).LASTPAGE = (addPage h s base).pages.length :=
      addPage_LASTPAGE h s base
    have h2 : Packed 0 (addPage h s base).pages (addPage h s base).freep := by
      rw [hpg, hf]
      have := Packed_append h.pages 0 h.freep
        (page.mk h.freep (h.freep + s + 1) (s + 1) (some (h.freep : Int)) base) hp rfl
      exact this
    have h3 : ∀ p ∈ (addPage h s base).pages,
        p.left ≤ p.right ∧ p.right < (addPage h s base).freep := by
      intro p hpm
      rw [hpg] at hpm
      rw [hf]
      rcases List.mem_append.mp hpm with hpm | hpm
      · have := hlr p hpm
        omega
      · rw [List.mem_singleton] at hpm
        subst hpm
        exact ⟨by show h.freep ≤ h.freep + s + 1; omega, by show h.freep + s + 1 < _; omega⟩
    obtain ⟨a, b, c, d⟩ := ih (addPage h s base) (base + 1) h1 h2 h3 (by rw [hf]; omega)
    simp only [addPages, List.map_cons, List.sum_cons]
    exact ⟨a, b, c, by rw [d, hf]; omega⟩

/-- The loop of `defrag` on a packed chain whose mark bytes are all `'M'`: no call of `MV`,
the chain and the cursor come out as they were, and only the mark bytes are rewritten. -/
theorem sweep_all_live (sz : Nat) (ps : List page) :
    ∀ (pool : Pool) (start fin : Nat), Packed start ps fin →
      (∀ p ∈ ps, p.left ≤ p.right ∧ p.right + 1 < UINT) →
      (∀ p ∈ ps, pool p.right = 'M') →
      ∃ r, sweep sz pool start ps = .ok r ∧ r.kept = ps ∧ r.freep = fin ∧ r.moves = 0 ∧
        (∀ k, (∀ p ∈ ps, k ≠ p.right) → r.pool k = pool k) ∧
        (∀ p ∈ ps, r.pool p.right = 'U') := by
  induction ps with
  | nil =>
    intro pool start fin hp _ _
    have hp' : fin = start := hp
    exact ⟨_, sweep_nil sz pool start, rfl, hp'.symm, rfl, fun _ _ => rfl,
      fun p hp => by cases hp⟩
  | cons p rest ih =>
    intro pool start fin hp hlr hM
    have hpl := hlr p (List.mem_cons_self _ _)
    have hlr' : ∀ q ∈ rest, q.left ≤ q.right ∧ q.right + 1 < UINT :=
      fun q hq => hlr q (List.mem_cons_of_mem _ hq)
    have hlow := Packed_lower rest _ _ hp.2 (fun q hq => (hlr' q hq).1)
    have hne : ∀ q ∈ rest, q.right ≠ p.right := by
      intro q hq
      have := hlow q hq
      have := (hlr' q hq).1
      omega
    have hM' : ∀ q ∈ rest, store pool p.right 'U' q.right = 'M' := by
      intro q hq
      rw [store_other _ _ _ (hne q hq)]
      exact hM q (List.mem_cons_of_mem _ hq)
    obtain ⟨r, hr, hk, hf, hmv, hfr, hU⟩ := ih (store pool p.right 'U') (p.right + 1) fin hp.2 hlr' hM'
    have hmod : (p.right + 1) % UINT = p.right + 1 := Nat.mod_eq_of_lt hpl.2
    refine ⟨{ r with kept := p :: r.kept },
      sweep_stay sz pool start p rest r (hM p (List.mem_cons_self _ _)) hp.1.symm
        (by rw [hmod]; exact hr), ?_, hf, hmv, ?_, ?_⟩
    · show p :: r.kept = p :: rest
      rw [hk]
    · intro k hkk
      show r.pool k = pool k
      rw [hfr k (fun q hq => hkk q (List.mem_cons_of_mem _ hq)),
        store_other _ _ _ (hkk p (List.mem_cons_self _ _))]
    · intro q hq
      show r.pool q.right = 'U'
      rcases List.mem_cons.mp hq with rfl | hq
      · rw [hfr q.right (fun x hx => (hne x hx).symm), store_same]
      · exact hU q hq

/-- C19: on a heap whose chain and cursor are those built by `addPage` calls from the
initial heap (inside the pool) and whose mark bytes are all `'M'`, `defrag` returns
without any call of `MV`; the chain (every `left`, `right`, `size` and `obj`) and `freep`
are as before the call, and every byte of the pool that is not a mark byte is unchanged. -/
theorem defrag_moves_nothing_when_all_live (sz base : Nat) (ss : List Nat) (h : Heap)
    (hb : (ss.map (fun s => s + 2)).sum ≤ HEAPSIZE)
    (hp : h.pages = (addPages Heap.init base ss).pages)
    (hf : h.freep = (addPages Heap.init base ss).freep)
    (hM : ∀ p ∈ h.pages, h.pool p.right = 'M') :
    ∃ h1, defrag sz h = .ok h1 ∧ defragMoves sz h = .ok 0 ∧
      h1.pages = h.pages ∧ h1.freep = h.freep ∧
      ∀ k, (∀ p ∈ h.pages, k ≠ p.right) → h1.pool k = h.pool k := by
  have hb' : Heap.init.freep + (ss.map (fun s => s + 2)).sum < UINT := by
    have h0 : Heap.init.freep = 0 := rfl
    unfold HEAPSIZE at hb
    unfold UINT
    omega
  obtain ⟨_, hpk, hlr, hfreep⟩ := addPages_packed ss Heap.init base rfl rfl
    (fun p hp => by cases hp) hb'
  rw [← hp, ← hf] at hpk
  rw [← hp, ← hf] at hlr
  have hfb : h.freep < UINT := by rw [hf, hfreep]; exact hb'
  obtain ⟨r, hr, hk, hfr, hmv, hframe, _⟩ := sweep_all_live sz h.pages h.pool 0 h.freep hpk
    (fun p hp => ⟨(hlr p hp).1, by have := (hlr p hp).2; omega⟩) hM
  refine ⟨{ pool := r.pool, freep := r.freep, pages := r.kept, LASTPAGE := r.kept.length },
    ?_, ?_, hk, hfr, hframe⟩
  · rw [defrag_eq, hr]
  · rw [defragMoves_eq, hr]; simp only [hmv]

theorem defrag_moves_nothing_when_all_live_witness :
    ([250, 1000].map (fun s => s + 2)).sum ≤ HEAPSIZE ∧
    allLive.pages = (addPages Heap.init 1 [250, 1000]).pages ∧
    allLive.freep = (addPages Heap.init 1 [250, 1000]).freep ∧
    (∀ p ∈ allLive.pages, allLive.pool p.right = 'M') ∧
    ∃ h1, defrag 8 allLive = .ok h1 ∧ defragMoves 8 allLive = .ok 0 ∧
      h1.pages = allLive.pages ∧ h1.freep = allLive.freep ∧
      ∀ k, (∀ p ∈ allLive.pages, k ≠ p.right) → h1.pool k = allLive.pool k :=
  ⟨by decide, by decide, by decide, by decide,
    defrag_moves_nothing_when_all_live 8 1 [250, 1000] allLive (by decide) (by decide)
      (by decide) (by decide)⟩

/-! ## Claim C20 : the assertion of `MV` -/

/-- The loop of `defrag` over `a ++ b` is the loop over `a` followed by the loop over `b`
from the pool and cursor the first one left: the result of `sweep` on a beginning of the
chain is the state of the loop when it reaches the node that follows it. -/
theorem sweep_append (sz : Nat) (a b : List page) :
    ∀ (pool : Pool) (f : Nat) (r : Sweep), sweep sz pool f a = .ok r →
      sweep sz pool f (a ++ b) =
        match sweep sz r.pool r.freep b with
        | .error e => .error e
        | .ok r2 => .ok { pool := r2.pool, freep := r2.freep, kept := r.kept ++ r2.kept,
                          moves := r.moves + r2.moves } := by
  induction a with
  | nil =>
    intro pool f r hr
    rw [sweep_nil] at hr
    injection hr with hr
    subst hr
    simp only [List.nil_append, zero_add]
    cases sweep sz pool f b <;> rfl
  | cons p rest ih =>
    intro pool f r hr
    rw [List.cons_append, sweep]
    rw [sweep] at hr
    by_cases hM : pool p.right = 'M'
    · simp only [if_pos hM] at hr ⊢
      by_cases hmv : f ≠ p.left
      · simp only [if_pos hmv] at hr ⊢
        cases hMV : MV sz f p (store pool p.right 'U') with
        | error e => simp only [hMV] at hr; cases hr
        | ok m =>
          obtain ⟨p1, pool2⟩ := m
          simp only [hMV] at hr ⊢
          cases h0 : sweep sz pool2 ((p1.right + 1) % UINT) rest with
          | error e => simp only [h0] at hr; cases hr
          | ok r0 =>
            simp only [h0] at hr
            injection hr with hr
            subst hr
            rw [ih _ _ r0 h0]
            cases sweep sz r0.pool r0.freep b with
            | error e => rfl
            | ok r2 => simp only [List.cons_append, Nat.add_right_comm]
      · simp only [if_neg hmv] at hr ⊢
        cases h0 : sweep sz (store pool p.right 'U') ((p.right + 1) % UINT) rest with
        | error e => simp only [h0] at hr; cases hr
        | ok r0 =>
          simp only [h0] at hr
          injection hr with hr
          subst hr
          rw [ih _ _ r0 h0]
          cases sweep sz r0.pool r0.freep b with
          | error e => rfl
          | ok r2 => simp only [List.cons_append]
    · simp only [if_neg hM] at hr ⊢
      by_cases hU : pool p.right = 'U'
      · simp only [if_pos hU] at hr ⊢
        exact ih _ _ r hr
      · simp only [if_neg hU] at hr
        cases hr

theorem Laid_append (a : List page) :
    ∀ (lo : Nat) (p : page) (b : List page), Laid lo (a ++ p :: b) →
      Laid lo a ∧ (∀ q ∈ a, q.right + 1 ≤ p.left) ∧ lo ≤ p.left ∧ p.left ≤ p.right ∧
        p.right < HEAPSIZE := by
  induction a with
  | nil =>
    intro lo p b h
    exact ⟨trivial, fun q hq => (by cases hq), h.1, h.2.1, h.2.2.2.1⟩
  | cons x rest ih =>
    intro lo p b h
    obtain ⟨h1, h2, h3, h4, h5⟩ := h
    obtain ⟨i1, i2, i3, i4, i5⟩ := ih (x.right + 1) p b h5
    refine ⟨⟨h1, h2, h3, h4, i1⟩, ?_, by omega, i4, i5⟩
    intro q hq
    rcases List.mem_cons.mp hq with rfl | hq
    · exact i3
    · exact i2 q hq

/-- On a laid out chain the cursor never passes the start of what follows the chain. -/
theorem sweep_cursor_le (sz : Nat) (a : List page) :
    ∀ (pool : Pool) (freep lo hi : Nat), freep ≤ lo → lo ≤ hi → Laid lo a →
      (∀ q ∈ a, q.right + 1 ≤ hi) → Marked pool a →
      ∃ r, sweep sz pool freep a = .ok r ∧ r.freep ≤ hi := by
  induction a with
  | nil =>
    intro pool freep lo hi h1 h2 _ _ _
    exact ⟨_, sweep_nil sz pool freep, by show freep ≤ hi; omega⟩
  | cons p rest ih =>
    intro pool freep lo hi hfl hlh hlaid hhi hmark
    obtain ⟨hlo, hlr, hsz, hrb, hrest⟩ := hlaid
    have hrU : p.right + 1 < UINT := by unfold HEAPSIZE at hrb; unfold UINT; omega
    have hmarkr : Marked pool rest := fun q hq => hmark q (List.mem_cons_of_mem _ hq)
    have hhi' : ∀ q ∈ rest, q.right + 1 ≤ hi := fun q hq => hhi q (List.mem_cons_of_mem _ hq)
    have hphi := hhi p (List.mem_cons_self _ _)
    rcases hmark p (List.mem_cons_self _ _) with hM | hU
    · by_cases hmv : freep = p.left
      · have hag : ∀ k, p.right + 1 ≤ k → store pool p.right 'U' k = pool k :=
          fun k hk => store_other _ _ _ (by omega)
        have hmod : (p.right + 1) % UINT = p.right + 1 := Nat.mod_eq_of_lt hrU
        obtain ⟨r0, hr0, hle⟩ := ih (store pool p.right 'U') (p.right + 1) (p.right + 1) hi
          le_rfl hphi hrest hhi' (Marked_of_agree hrest hag hmarkr)
        exact ⟨_, sweep_stay sz pool freep p rest r0 hM hmv (by rw [hmod]; exact hr0), hle⟩
      · have hlt : freep < p.left := by omega
        have hMV := MV_ok sz freep p (store pool p.right 'U') hlt hlr hrb
        have hfs : freep + p.size ≤ UINT := by omega
        have hag : ∀ k, p.right + 1 ≤ k →
            memMove (store pool p.right 'U') p.left freep p.size k = pool k := by
          intro k hk
          rw [memMove_apply _ _ _ _ hfs, if_neg (by omega), store_other _ _ _ (by omega)]
        have hmod : (freep + (p.right - p.left) + 1) % UINT = freep + (p.right - p.left) + 1 :=
          Nat.mod_eq_of_lt (by omega)
        obtain ⟨r0, hr0, hle⟩ :=
          ih (memMove (store pool p.right 'U') p.left freep p.size)
            (freep + (p.right - p.left) + 1) (p.right + 1) hi (by omega) hphi hrest hhi'
            (Marked_of_agree hrest hag hmarkr)
        exact ⟨_, sweep_move sz pool freep p rest _ _ r0 hM hmv hMV (by rw [hmod]; exact hr0),
          hle⟩
    · obtain ⟨r0, hr0, hle⟩ := ih pool freep (p.right + 1) hi (by omega) hphi hrest hhi' hmarkr
      exact ⟨r0, by rw [sweep_dead sz pool freep p rest hU]; exact hr0, hle⟩

/-- C20: on a heap whose extents are laid out in chain order without overlap and whose mark
bytes are all `'M'` or `'U'`, `defrag` returns (no assertion fails), and at every extent
`p` of the chain the cursor `freep` the loop has when it reaches `p` satisfies
`freep <= p.left` and `p.left - freep <= p.right`; when `freep` differs from `p.left` the
call `MV(freep, p)` passes its assertion and computes `left` and `right` without
wrap-around. -/
theorem defrag_never_fails_MV_assertion (sz : Nat) (h : Heap)
    (hl : Laid 0 h.pages) (hm : Marked h.pool h.pages) :
    (∃ h1, defrag sz h = .ok h1) ∧
    ∀ a p b, h.pages = a ++ p :: b →
      ∃ r, sweep sz h.pool 0 a = .ok r ∧ r.freep ≤ p.left ∧ p.left - r.freep ≤ p.right ∧
        (r.freep ≠ p.left →
          r.freep < p.left ∧
          ∃ m, MV sz r.freep p (store r.pool p.right 'U') = .ok m ∧
            m.1.left = r.freep ∧ m.1.right = p.right - (p.left - r.freep)) := by
  refine ⟨?_, ?_⟩
  · obtain ⟨h1, hd, _⟩ := defrag_spec sz h hl hm
    exact ⟨h1, hd⟩
  · intro a p b hab
    rw [hab] at hl
    obtain ⟨hla, hbefore, _, hlr, hrb⟩ := Laid_append a 0 p b hl
    have hma : Marked h.pool a := by
      intro q hq
      exact hm q (by rw [hab]; exact List.mem_append_left _ hq)
    obtain ⟨r, hr, hle⟩ := sweep_cursor_le sz a h.pool 0 0 p.left le_rfl (Nat.zero_le _)
      hla hbefore hma
    refine ⟨r, hr, hle, by omega, ?_⟩
    intro hne
    have hlt : r.freep < p.left := by omega
    refine ⟨hlt, _, MV_ok sz r.freep p (store r.pool p.right 'U') hlt hlr hrb, rfl, ?_⟩
    show r.freep + (p.right - p.left) = p.right - (p.left - r.freep)
    omega

theorem defrag_never_fails_MV_assertion_witness :
    Laid 0 demoHeap.pages ∧ Marked demoHeap.pool demoHeap.pages ∧
    (∃ h1, defrag 8 demoHeap = .ok h1) ∧
    ∀ a p b, demoHeap.pages = a ++ p :: b →
      ∃ r, sweep 8 demoHeap.pool 0 a = .ok r ∧ r.freep ≤ p.left ∧
        p.left - r.freep ≤ p.right ∧
        (r.freep ≠ p.left →
          r.freep < p.left ∧
          ∃ m, MV 8 r.freep p (store r.pool p.right 'U') = .ok m ∧
            m.1.left = r.freep ∧ m.1.right = p.right - (p.left - r.freep)) :=
  ⟨by decide, by decide, defrag_never_fails_MV_assertion 8 demoHeap (by decide) (by decide)⟩

end GC2
